import Mathlib

/-!
Verification of the include flattener and source-mapping engine of the
dts_viewer repository (crate device_tree_source).

The Rust sources are shallowly embedded over byte lists:
  - src/device_tree_source/src/lib.rs      (offset arithmetic, older copy of the
    flattener and of split_bounds)
  - src/device_tree_source/src/include.rs  (the flattener, IncludeBounds,
    linemarker recognizer, binary search over bounds)

Machine integers (usize) are modelled as Nat; places where the Rust code can
underflow a usize subtraction in a checked build are modelled explicitly with a
panicked outcome where a claim depends on it.
-/

namespace DtsViewer

/-- Byte sequences: file contents and buffers are lists of byte values. -/
abbrev Bytes := List Nat

/-- ASCII bytes of a string literal (all inputs considered here are ASCII). -/
def strBytes (s : String) : Bytes := s.toList.map Char.toNat

/-! ## Offset / line arithmetic (lib.rs lines 316-345) -/

/-- Result of line_to_byte_offset: the Ok offset, the Err case of the Rust
Result (the "Failed converting from line to byte offset" error, wrapped as a
ParseError by callers), or a runtime panic.  The panicked case arises from the
unsigned subtraction `line - 2`, which underflows for `line = 0` (an arithmetic
overflow abort in a checked Rust build). -/
inductive LineOff where
  | ok (off : Nat)
  | err
  | panicked
deriving DecidableEq

/-- Embedding of lib.rs:316-329:
  if line == 1 { Ok(0) } else {
    bytes.enumerate().filter(|(_, byte)| byte == b'\n').nth(line - 2)
         .map(|(offset, _)| offset + 1).ok_or(...) }
The `line = 0` branch models the usize underflow of `line - 2`. -/
def line_to_byte_offset (s : Bytes) (line : Nat) : LineOff :=
  if line = 1 then .ok 0
  else if line = 0 then .panicked
  else
    match (s.enum.filter (fun p => p.2 == 10))[line - 2]? with
    | some p => .ok (p.1 + 1)
    | none => .err

/-- Embedding of lib.rs:331-345:
  bytes.enumerate().filter(|(off, byte)| off < offset && byte == b'\n')
       .map(|(start, _)| start).enumerate().last()
  mapped to (line + 2, offset - start), or (1, offset + 1) when None. -/
def byte_offset_to_line_col (s : Bytes) (offset : Nat) : Nat × Nat :=
  match (((s.enum.filter (fun p => decide (p.1 < offset) && p.2 == 10)).map
      Prod.fst).enum).getLast? with
  | some (line, start) => (line + 2, offset - start)
  | none => (1, offset + 1)

/-- Number of newline bytes in a sequence (spec-side notion). -/
def countNewlines (s : Bytes) : Nat := (s.filter (fun b => b == 10)).length

/-- Position of the k-th newline byte (0-indexed), by direct recursion
(spec-side notion, independent of the iterator pipeline in the source). -/
def nthNewlinePos (s : Bytes) (k : Nat) : Option Nat :=
  match s with
  | [] => none
  | b :: rest =>
    if b = 10 then
      if k = 0 then some 0 else (nthNewlinePos rest (k - 1)).map (· + 1)
    else (nthNewlinePos rest k).map (· + 1)

/-- The list of newline positions as computed by the enumerate/filter/map
pipeline, generalized over the enumeration start. -/
def nlposFrom (n : Nat) (s : Bytes) : List Nat :=
  ((s.enumFrom n).filter (fun p => p.2 == 10)).map Prod.fst

lemma nlposFrom_cons (n : Nat) (b : Nat) (s : Bytes) :
    nlposFrom n (b :: s) =
      if b = 10 then n :: nlposFrom (n + 1) s else nlposFrom (n + 1) s := by
  by_cases h : b = 10 <;> simp [nlposFrom, List.enumFrom, List.filter_cons, h]

lemma nlposFrom_getElem? (s : Bytes) :
    ∀ (n k : Nat), (nlposFrom n s)[k]? = (nthNewlinePos s k).map (· + n) := by
  induction s with
  | nil => intro n k; simp [nlposFrom, List.enumFrom, nthNewlinePos]
  | cons b rest ih =>
    intro n k
    rw [nlposFrom_cons]
    by_cases hb : b = 10
    · rw [if_pos hb]
      cases k with
      | zero => simp [nthNewlinePos, hb]
      | succ k =>
        simp only [List.getElem?_cons_succ, ih (n + 1) k, nthNewlinePos,
          if_pos hb, if_neg (by omega : ¬ (k + 1 = 0)), Nat.add_sub_cancel,
          Option.map_map]
        congr 1
        funext x
        simp only [Function.comp_apply]
        omega
    · rw [if_neg hb]
      simp only [nthNewlinePos, if_neg hb, ih (n + 1) k, Option.map_map]
      congr 1
      funext x
      simp only [Function.comp_apply]
      omega

lemma nlposFrom_length (s : Bytes) : ∀ n, (nlposFrom n s).length = countNewlines s := by
  induction s with
  | nil => intro n; simp [nlposFrom, List.enumFrom, countNewlines]
  | cons b rest ih =>
    intro n
    rw [nlposFrom_cons]
    by_cases hb : b = 10 <;>
      simp [hb, countNewlines, List.filter_cons, ih (n + 1)]

lemma nlposFrom_mem (s : Bytes) : ∀ n x, x ∈ nlposFrom n s → n ≤ x := by
  induction s with
  | nil => intro n x h; simp [nlposFrom, List.enumFrom] at h
  | cons b rest ih =>
    intro n x h
    rw [nlposFrom_cons] at h
    by_cases hb : b = 10
    · rw [if_pos hb] at h
      rcases List.mem_cons.mp h with h | h
      · omega
      · have := ih (n + 1) x h; omega
    · rw [if_neg hb] at h
      have := ih (n + 1) x h; omega

lemma nlposFrom_pairwise (s : Bytes) : ∀ n, (nlposFrom n s).Pairwise (· < ·) := by
  induction s with
  | nil => intro n; simp [nlposFrom, List.enumFrom]
  | cons b rest ih =>
    intro n
    rw [nlposFrom_cons]
    by_cases hb : b = 10
    · rw [if_pos hb]
      refine List.Pairwise.cons ?_ (ih (n + 1))
      intro x hx
      have := nlposFrom_mem rest (n + 1) x hx
      omega
    · rw [if_neg hb]; exact ih (n + 1)

lemma nlposFrom_mem_newline (s : Bytes) :
    ∀ n x, x ∈ nlposFrom n s → n ≤ x ∧ s[x - n]? = some 10 := by
  induction s with
  | nil => intro n x h; simp [nlposFrom, List.enumFrom] at h
  | cons b rest ih =>
    intro n x h
    rw [nlposFrom_cons] at h
    by_cases hb : b = 10
    · rw [if_pos hb] at h
      rcases List.mem_cons.mp h with h | h
      · subst h
        simp [Nat.sub_self, hb]
      · obtain ⟨h1, h2⟩ := ih (n + 1) x h
        refine ⟨by omega, ?_⟩
        have hx : x - n = (x - (n + 1)) + 1 := by omega
        rw [hx, List.getElem?_cons_succ]
        exact h2
    · rw [if_neg hb] at h
      obtain ⟨h1, h2⟩ := ih (n + 1) x h
      refine ⟨by omega, ?_⟩
      have hx : x - n = (x - (n + 1)) + 1 := by omega
      rw [hx, List.getElem?_cons_succ]
      exact h2

/-- The filtered pipeline of byte_offset_to_line_col equals the newline
positions below the offset. -/
lemma pipeline_filter_eq (s : Bytes) (off : Nat) :
    ∀ n, ((s.enumFrom n).filter (fun p => decide (p.1 < off) && p.2 == 10)).map
        Prod.fst = (nlposFrom n s).filter (fun x => decide (x < off)) := by
  induction s with
  | nil => intro n; simp [nlposFrom, List.enumFrom]
  | cons b rest ih =>
    intro n
    rw [nlposFrom_cons]
    by_cases hb : b = 10 <;> by_cases hn : n < off <;>
      simp [List.enumFrom, List.filter_cons, hb, hn, ih (n + 1)]

lemma filter_lt_succ_of_pairwise :
    ∀ (l : List Nat), l.Pairwise (· < ·) → ∀ (k x : Nat), l[k]? = some x →
      l.filter (fun y => decide (y < x + 1)) = l.take (k + 1) := by
  intro l
  induction l with
  | nil => intro _ k x h; simp at h
  | cons a t ih =>
    intro hp k x h
    obtain ⟨ha, ht⟩ := List.pairwise_cons.mp hp
    cases k with
    | zero =>
      simp only [List.getElem?_cons_zero, Option.some_inj] at h
      subst h
      rw [List.filter_cons, if_pos (by simp)]
      have : t.filter (fun y => decide (y < a + 1)) = [] := by
        rw [List.filter_eq_nil_iff]
        intro y hy
        have := ha y hy
        simp only [decide_eq_true_eq]
        omega
      simp [this]
    | succ k =>
      rw [List.getElem?_cons_succ] at h
      have hx : a < x := by
        obtain hk := List.getElem?_eq_some_iff.mp h
        obtain ⟨hlt, he⟩ := hk
        exact he ▸ ha _ (List.getElem_mem hlt)
      rw [List.filter_cons, if_pos (by simp only [decide_eq_true_eq]; omega),
        List.take_succ_cons, ih ht k x h]

lemma getLast?_take_succ :
    ∀ (l : List Nat) (k x : Nat), l[k]? = some x →
      (l.take (k + 1)).getLast? = some x := by
  intro l
  induction l with
  | nil => intro k x h; simp at h
  | cons a t ih =>
    intro k x h
    cases k with
    | zero =>
      simp only [List.getElem?_cons_zero, Option.some_inj] at h
      simp [h]
    | succ k =>
      rw [List.getElem?_cons_succ] at h
      rw [List.take_succ_cons]
      cases t with
      | nil => simp at h
      | cons c t2 =>
        rw [List.take_succ_cons, List.getLast?_cons_cons]
        rw [← List.take_succ_cons]
        exact ih k x h

lemma enumFrom_getLast? :
    ∀ (l : List Nat) (n x : Nat), l.getLast? = some x →
      (l.enumFrom n).getLast? = some (n + l.length - 1, x) := by
  intro l
  induction l with
  | nil => intro n x h; simp at h
  | cons a t ih =>
    intro n x h
    cases t with
    | nil =>
      simp only [List.getLast?_singleton, Option.some_inj] at h
      simp [List.enumFrom, h]
    | cons c t2 =>
      rw [List.getLast?_cons_cons] at h
      have h2 := ih (n + 1) x h
      show ((n, a) :: (c :: t2).enumFrom (n + 1)).getLast? = _
      have hne : (c :: t2).enumFrom (n + 1) = (n + 1, c) :: t2.enumFrom (n + 2) := by
        simp [List.enumFrom]
      rw [hne, List.getLast?_cons_cons, ← hne, h2]
      congr 2
      simp
      omega

lemma line_to_byte_offset_eq (s : Bytes) (line : Nat) (h : 2 ≤ line) :
    line_to_byte_offset s line =
      match (nlposFrom 0 s)[line - 2]? with
      | some p => .ok (p + 1)
      | none => .err := by
  have h1 : ¬ line = 1 := by omega
  have h0 : ¬ line = 0 := by omega
  unfold line_to_byte_offset
  rw [if_neg h1, if_neg h0]
  have hmap : (nlposFrom 0 s)[line - 2]? =
      ((s.enum.filter (fun p => p.2 == 10))[line - 2]?).map Prod.fst := by
    unfold nlposFrom
    rw [show s.enum = s.enumFrom 0 from rfl]
    exact List.getElem?_map _ _ _
  rw [hmap]
  cases (s.enum.filter (fun p => p.2 == 10))[line - 2]? <;> simp

/-- C6: line_to_byte_offset returns 0 for line 1; otherwise one past the
position of the (line-2)-th newline byte (0-indexed); fails (the Err that
callers wrap as a ParseError) when the sequence holds fewer than line - 1
newlines; and on "Howdy\nHow goes it\n\nI'm doing fine\n" it returns
0, 6, 18, 19 for lines 1 to 4. -/
theorem line_to_byte_offset_spec (s : Bytes) (line : Nat) (h2 : 2 ≤ line) :
    line_to_byte_offset s 1 = .ok 0
    ∧ (∀ p, nthNewlinePos s (line - 2) = some p →
        line_to_byte_offset s line = .ok (p + 1))
    ∧ (countNewlines s < line - 1 → line_to_byte_offset s line = .err)
    ∧ line_to_byte_offset (strBytes "Howdy\nHow goes it\n\nI'm doing fine\n") 1 = .ok 0
    ∧ line_to_byte_offset (strBytes "Howdy\nHow goes it\n\nI'm doing fine\n") 2 = .ok 6
    ∧ line_to_byte_offset (strBytes "Howdy\nHow goes it\n\nI'm doing fine\n") 3 = .ok 18
    ∧ line_to_byte_offset (strBytes "Howdy\nHow goes it\n\nI'm doing fine\n") 4 = .ok 19 := by
  refine ⟨by simp [line_to_byte_offset], ?_, ?_, by decide, by decide, by decide, by decide⟩
  · intro p hp
    rw [line_to_byte_offset_eq s line h2, nlposFrom_getElem?, hp]
    simp
  · intro hc
    rw [line_to_byte_offset_eq s line h2,
      List.getElem?_eq_none_iff.mpr (by rw [nlposFrom_length]; omega)]

/-- Witness for C6 at a concrete input. -/
theorem line_to_byte_offset_spec_witness :
    (2 : Nat) ≤ 2 ∧ line_to_byte_offset (strBytes "x\ny") 2 = .ok 2 :=
  ⟨by decide, (line_to_byte_offset_spec (strBytes "x\ny") 2 (by decide)).2.1 1 (by decide)⟩

/-- C5: composing the two offset-arithmetic functions round-trips: for every
byte sequence s and every line n with 1 <= n <= 1 + countNewlines s,
line_to_byte_offset succeeds with an offset off and
byte_offset_to_line_col s off = (n, 1). -/
theorem line_offset_round_trip (s : Bytes) (n : Nat) (h1 : 1 ≤ n)
    (h2 : n ≤ 1 + countNewlines s) :
    ∃ off, line_to_byte_offset s n = .ok off
      ∧ byte_offset_to_line_col s off = (n, 1) := by
  by_cases hn1 : n = 1
  · subst hn1
    refine ⟨0, by simp [line_to_byte_offset], ?_⟩
    have hnil : s.enum.filter (fun p => decide (p.1 < 0) && p.2 == 10) = [] := by
      rw [List.filter_eq_nil_iff]; intro p _; simp
    unfold byte_offset_to_line_col
    rw [hnil]
    simp [List.enumFrom]
  · have hn2 : 2 ≤ n := by omega
    have hk : n - 2 < (nlposFrom 0 s).length := by
      rw [nlposFrom_length]; omega
    obtain ⟨x, hx⟩ : ∃ x, (nlposFrom 0 s)[n - 2]? = some x :=
      ⟨_, List.getElem?_eq_getElem hk⟩
    refine ⟨x + 1, ?_, ?_⟩
    · rw [line_to_byte_offset_eq s n hn2, hx]
    · unfold byte_offset_to_line_col
      rw [show s.enum = s.enumFrom 0 from rfl, pipeline_filter_eq s (x + 1) 0,
        filter_lt_succ_of_pairwise (nlposFrom 0 s) (nlposFrom_pairwise s 0)
          (n - 2) x hx]
      have hlast := getLast?_take_succ (nlposFrom 0 s) (n - 2) x hx
      have henum := enumFrom_getLast? ((nlposFrom 0 s).take (n - 2 + 1)) 0 x hlast
      rw [show ∀ l : List Nat, l.enum = l.enumFrom 0 from fun _ => rfl, henum]
      have hlen : ((nlposFrom 0 s).take (n - 2 + 1)).length = n - 2 + 1 := by
        rw [List.length_take]; omega
      rw [hlen]
      show (0 + (n - 2 + 1) - 1 + 2, x + 1 - x) = (n, 1)
      congr 1 <;> omega

/-- Witness for C5 at a concrete input. -/
theorem line_offset_round_trip_witness :
    (1 : Nat) ≤ 2 ∧ 2 ≤ 1 + countNewlines (strBytes "ab\ncd")
    ∧ line_to_byte_offset (strBytes "ab\ncd") 2 = .ok 3
    ∧ byte_offset_to_line_col (strBytes "ab\ncd") 3 = (2, 1) := by
  obtain ⟨off, h1, h2⟩ :=
    line_offset_round_trip (strBytes "ab\ncd") 2 (by decide) (by decide)
  have hoff : off = 3 := by
    have h3 : line_to_byte_offset (strBytes "ab\ncd") 2 = .ok 3 := by decide
    rw [h1] at h3
    injection h3
  subst hoff
  exact ⟨by decide, by decide, h1, h2⟩

/-- C9: byte_offset_to_line_col is total (it returns a plain pair, never an
error, for every sequence and every offset, including offsets at or beyond the
length), and it returns (1, offset + 1) whenever no newline byte lies strictly
before the offset. -/
theorem byte_offset_to_line_col_total (s : Bytes) (off : Nat)
    (h : ∀ i, i < off → s[i]? ≠ some 10) :
    byte_offset_to_line_col s off = (1, off + 1) := by
  have hnil : (nlposFrom 0 s).filter (fun x => decide (x < off)) = [] := by
    rw [List.filter_eq_nil_iff]
    intro x hx
    obtain ⟨_, hby⟩ := nlposFrom_mem_newline s 0 x hx
    simp only [Nat.sub_zero] at hby
    simp only [decide_eq_true_eq]
    intro hlt
    exact h x hlt hby
  unfold byte_offset_to_line_col
  rw [show s.enum = s.enumFrom 0 from rfl, pipeline_filter_eq s off 0, hnil]
  simp [List.enumFrom]

/-- Witness for C9: an offset past the end of the sequence still yields a
pair, namely (1, offset + 1). -/
theorem byte_offset_to_line_col_total_witness :
    byte_offset_to_line_col (strBytes "abc") 7 = (1, 8) :=
  byte_offset_to_line_col_total (strBytes "abc") 7 (by decide)

/-- C10: called with line = 0, line_to_byte_offset does not return its Err
case but evaluates the underflowing usize subtraction line - 2 (an arithmetic
abort in a checked build, modelled as the panicked outcome); for every
line >= 1 the panicked outcome is impossible, so callers establishing
line >= 1 make the function panic-free. -/
theorem line_to_byte_offset_zero_underflow (s : Bytes) :
    (line_to_byte_offset s 0 = .panicked ∧ line_to_byte_offset s 0 ≠ .err)
    ∧ (∀ line, 1 ≤ line → line_to_byte_offset s line ≠ .panicked) := by
  constructor
  · constructor <;> simp [line_to_byte_offset]
  · intro line hl
    unfold line_to_byte_offset
    by_cases h1 : line = 1
    · simp [h1]
    · rw [if_neg h1, if_neg (by omega)]
      cases (s.enum.filter (fun p => p.2 == 10))[line - 2]? <;> simp

/-- Witness for C10 at a concrete input. -/
theorem line_to_byte_offset_zero_underflow_witness :
    (line_to_byte_offset (strBytes "a") 0 = .panicked
      ∧ line_to_byte_offset (strBytes "a") 0 ≠ .err)
    ∧ line_to_byte_offset (strBytes "a") 1 ≠ .panicked :=
  ⟨(line_to_byte_offset_zero_underflow (strBytes "a")).1,
    (line_to_byte_offset_zero_underflow (strBytes "a")).2 1 (by decide)⟩

/-! ## Parser primitives (the nom combinators used by include.rs) -/

/-- nom `space`: one or more of space or tab. -/
def isSpaceByte (b : Nat) : Bool := b == 32 || b == 9

/-- nom `multispace`: one or more of space, tab, carriage return, newline. -/
def isMultispaceByte (b : Nat) : Bool := b == 32 || b == 9 || b == 13 || b == 10

/-- nom `digit`: ASCII decimal digits. -/
def isDigitByte (b : Nat) : Bool := 48 ≤ b && b ≤ 57

/-- nom char!(c): consume exactly the byte c. -/
def pChar (c : Nat) (i : Bytes) : Option Bytes :=
  match i with
  | b :: rest => if b = c then some rest else none
  | [] => none

/-- nom tag!(t): consume exactly the byte sequence t. -/
def pTag (t : Bytes) (i : Bytes) : Option Bytes :=
  if t.isPrefixOf i then some (i.drop t.length) else none

/-- One-or-more span of bytes satisfying p (nom space / multispace / digit).
Returns (remainder, matched bytes). -/
def pSpan (p : Nat → Bool) (i : Bytes) : Option (Bytes × Bytes) :=
  if (i.takeWhile p).isEmpty then none else some (i.dropWhile p, i.takeWhile p)

/-- Decimal value of a digit string (usize::from_str / u64::from_str). -/
def digitsToNat (ds : Bytes) : Nat := ds.foldl (fun acc d => acc * 10 + (d - 48)) 0

/-- map_res!(..., usize::from_str): fails (integer overflow) at 2^64. -/
def fromStrNat (ds : Bytes) : Option Nat :=
  if digitsToNat ds < 2 ^ 64 then some (digitsToNat ds) else none

/-- nom line_ending: "\r\n" or "\n". -/
def lineEnding (i : Bytes) : Option Bytes :=
  match i with
  | [] => none
  | b :: rest =>
    if b = 10 then some rest
    else if b = 13 then
      match rest with
      | [] => none
      | c :: r2 => if c = 10 then some r2 else none
    else none

/-- C escape decoding of the byte following a backslash. -/
def unescapeByte (b : Nat) : Nat :=
  if b = 110 then 10        -- \n
  else if b = 116 then 9    -- \t
  else if b = 114 then 13   -- \r
  else if b = 48 then 0     -- \0
  else b                    -- \" and \\ yield the byte itself

/-- Modelled from the spec: escape_c_string of the crate module `parser`
(src/parser.rs, not among the given sources).  Per spec section 4.2 the
quoted body is a C-string-escape body, decoded with C backslash escape rules,
and it ends at the first unescaped double quote (which is left for the
enclosing delimited! parser).  Returns (remainder, decoded bytes). -/
def escape_c_string (i : Bytes) : Option (Bytes × Bytes) :=
  match i with
  | [] => some ([], [])
  | b :: rest =>
    if b = 34 then some (b :: rest, [])
    else if b = 92 then
      match rest with
      | [] => none
      | e :: rest2 => (escape_c_string rest2).map (fun p => (p.1, unescapeByte e :: p.2))
    else (escape_c_string rest).map (fun p => (p.1, b :: p.2))

/-- First index at which needle occurs as a substring (nom find_substring). -/
def findSubstringIdx (needle : Bytes) : Bytes → Option Nat
  | [] => if needle.isEmpty then some 0 else none
  | b :: rest =>
    if needle.isPrefixOf (b :: rest) then some 0
    else (findSubstringIdx needle rest).map (· + 1)

/-- Minimum of two optional indices (the iter().chain().min() in
find_linemarker_start). -/
def minOpt : Option Nat → Option Nat → Option Nat
  | some a, some b => some (min a b)
  | some a, none => some a
  | none, some b => some b
  | none, none => none

/-! ## The linemarker recognizer (include.rs lines 264-326) -/

/-- Linemarker flags; the digits 1..4 of the wire format. -/
inductive LinemarkerFlag where
  | Start
  | Return
  | System
  | Extern
deriving DecidableEq

/-- The transient linemarker record (include.rs lines 264-269). -/
structure Linemarker where
  child_line : Nat
  path : Bytes
  flag : Option LinemarkerFlag
deriving DecidableEq

/-- Result of parse_linemarker: Done(remaining, marker), a nom parse error
(Incomplete is collapsed with Error: complete! maps it to Error, and every
caller treats anything but Done alike), or a runtime panic from the
unreachable!() arm of the flag match. -/
inductive LmResult where
  | done (rem : Bytes) (lm : Linemarker)
  | fail
  | panicked
deriving DecidableEq

/-- The flag decoding match of parse_linemarker (include.rs lines 296-302):
1..4 map to Start, Return, System, Extern; anything else falls into the
unreachable!() arm, which is modelled by none (and turned into a panic by
parse_linemarker below). -/
def flagOf (v : Nat) : Option LinemarkerFlag :=
  if v = 1 then some .Start
  else if v = 2 then some .Return
  else if v = 3 then some .System
  else if v = 4 then some .Extern
  else none

/-- opt!(preceded!(space, map_res!(map_res!(digit, from_utf8), u64::from_str))) -/
def optFlag (i : Bytes) : Bytes × Option Nat :=
  match (pSpan isSpaceByte i).bind (fun p =>
      (pSpan isDigitByte p.1).bind (fun q =>
        (fromStrNat q.2).map (fun v => (q.1, v)))) with
  | some (j, v) => (j, some v)
  | none => (i, none)

/-- Tail of parse_linemarker after the closing quote of the path: the optional
(space, digits) flag, the line ending, and the construction of the Linemarker
with the flag match whose default arm is unreachable!() (modelled as
panicked). -/
def lmTail (line : Nat) (path : Bytes) (i8 : Bytes) : LmResult :=
  match optFlag i8 with
  | (i9, flag) =>
    match lineEnding i9 with
    | none => .fail
    | some rem =>
      match flag with
      | none => .done rem ⟨line, path, none⟩
      | some v =>
        match flagOf v with
        | some f => .done rem ⟨line, path, some f⟩
        | none => .panicked

/-- Middle of parse_linemarker: the delimited!(char!(0x22), escape_c_string,
char!(0x22)) quoted path, then lmTail. -/
def lmQuote (line : Nat) (i5 : Bytes) : LmResult :=
  match pChar 34 i5 with
  | none => .fail
  | some i6 =>
    match escape_c_string i6 with
    | none => .fail
    | some (i7, path) =>
      match pChar 34 i7 with
      | none => .fail
      | some i8 => lmTail line path i8

/-- Embedding of parse_linemarker (include.rs lines 279-305):
tag!("#"), opt!(tag!("line")), space, digits (usize), space, then the quoted
path, optional flag and line ending via lmQuote and lmTail.  A flag digit
outside 1..4 reaches unreachable!(), modelled as the panicked result. -/
def parse_linemarker (i : Bytes) : LmResult :=
  match pChar 35 i with
  | none => .fail
  | some i1 =>
    let i2 := (pTag (strBytes "line") i1).getD i1
    match pSpan isSpaceByte i2 with
    | none => .fail
    | some (i3, _) =>
      match pSpan isDigitByte i3 with
      | none => .fail
      | some (i4, ds) =>
        match fromStrNat ds with
        | none => .fail
        | some line =>
          match pSpan isSpaceByte i4 with
          | none => .fail
          | some (i5, _) => lmQuote line i5

/-- Result of find_linemarker (include.rs lines 307-326): the triple
(remaining, preceding bytes, marker) on success; nothing when no candidate is
found or the candidate fails to parse (the surrounding loops treat Error and
Incomplete alike); panicked when parse_linemarker panics. -/
inductive FindLm where
  | found (rem pre : Bytes) (lm : Linemarker)
  | nothing
  | panicked
deriving DecidableEq

/-- Embedding of find_linemarker_start (include.rs lines 307-320) composed
with parse_linemarker by find_linemarker (lines 322-326). -/
def find_linemarker (i : Bytes) : FindLm :=
  if i.length < 2 then .nothing
  else
    match minOpt (findSubstringIdx (strBytes "# ") i)
        (findSubstringIdx (strBytes "#line ") i) with
    | none => .nothing
    | some idx =>
      match parse_linemarker (i.drop idx) with
      | .done rem lm => .found rem (i.take idx) lm
      | .fail => .nothing
      | .panicked => .panicked

/-! ## C7 support lemmas -/

lemma digit_not_space {b : Nat} (h : isDigitByte b = true) : isSpaceByte b = false := by
  simp only [isDigitByte, Bool.and_eq_true, decide_eq_true_eq] at h
  simp only [isSpaceByte, Bool.or_eq_false_iff]
  constructor <;> simp only [beq_eq_false_iff_ne, ne_eq] <;> omega

lemma takeWhile_append_of_all {p : Nat → Bool} :
    ∀ (xs ys : Bytes), (∀ b ∈ xs, p b = true) →
      (xs ++ ys).takeWhile p = xs ++ ys.takeWhile p := by
  intro xs
  induction xs with
  | nil => intro ys _; simp
  | cons a t ih =>
    intro ys h
    have ha : p a = true := h a (by simp)
    simp only [List.cons_append, List.takeWhile_cons, ha, if_pos]
    rw [ih ys (fun b hb => h b (by simp [hb]))]

lemma dropWhile_append_of_all {p : Nat → Bool} :
    ∀ (xs ys : Bytes), (∀ b ∈ xs, p b = true) →
      (xs ++ ys).dropWhile p = ys.dropWhile p := by
  intro xs
  induction xs with
  | nil => intro ys _; simp
  | cons a t ih =>
    intro ys h
    have ha : p a = true := h a (by simp)
    simp only [List.cons_append, List.dropWhile_cons, ha, if_pos]
    exact ih ys (fun b hb => h b (by simp [hb]))

lemma pSpan_exact {p : Nat → Bool} (xs : Bytes) (y : Nat) (t : Bytes)
    (hne : xs ≠ []) (hall : ∀ b ∈ xs, p b = true) (hy : p y = false) :
    pSpan p (xs ++ y :: t) = some (y :: t, xs) := by
  unfold pSpan
  rw [takeWhile_append_of_all xs (y :: t) hall,
    dropWhile_append_of_all xs (y :: t) hall]
  simp [List.takeWhile_cons, List.dropWhile_cons, hy, hne]

lemma pTag_line_space {b : Nat} (t : Bytes) (hb : isSpaceByte b = true) :
    pTag (strBytes "line") (b :: t) = none := by
  have hs : strBytes "line" = [108, 105, 110, 101] := by decide
  have hb2 : b = 32 ∨ b = 9 := by
    simp only [isSpaceByte, Bool.or_eq_true, beq_iff_eq] at hb
    exact hb
  unfold pTag
  rw [hs]
  rcases hb2 with rfl | rfl <;> simp [List.isPrefixOf]

lemma escape_c_string_clean :
    ∀ (path : Bytes) (r : Bytes), (∀ b ∈ path, b ≠ 34 ∧ b ≠ 92) →
      escape_c_string (path ++ 34 :: r) = some (34 :: r, path) := by
  intro path
  induction path with
  | nil =>
    intro r _
    unfold escape_c_string
    simp
  | cons b t ih =>
    intro r h
    obtain ⟨hb34, hb92⟩ := h b (by simp)
    unfold escape_c_string
    simp only [List.cons_append]
    rw [if_neg hb34, if_neg hb92, ih r (fun x hx => h x (by simp [hx]))]
    simp

/-- A nonempty run of space/tab bytes. -/
def allSpaces (xs : Bytes) : Prop := xs ≠ [] ∧ ∀ b ∈ xs, isSpaceByte b = true

/-- A nonempty run of ASCII digit bytes. -/
def allDigits (xs : Bytes) : Prop := xs ≠ [] ∧ ∀ b ∈ xs, isDigitByte b = true

/-- A path body free of quotes and backslashes (no escapes needed). -/
def cleanPath (xs : Bytes) : Prop := ∀ b ∈ xs, b ≠ 34 ∧ b ≠ 92

instance (xs : Bytes) : Decidable (allSpaces xs) := by unfold allSpaces; infer_instance

instance (xs : Bytes) : Decidable (allDigits xs) := by unfold allDigits; infer_instance

instance (xs : Bytes) : Decidable (cleanPath xs) := by unfold cleanPath; infer_instance

lemma space_not_digit {b : Nat} (h : isSpaceByte b = true) : isDigitByte b = false := by
  simp only [isSpaceByte, Bool.or_eq_true, beq_iff_eq] at h
  simp only [isDigitByte, Bool.and_eq_false_iff, decide_eq_false_iff_not]
  omega

lemma takeWhile_nil_append {p : Nat → Bool} (xs ys : Bytes) (hne : xs ≠ [])
    (hx : ∀ b ∈ xs, p b = false) : ((xs ++ ys).takeWhile p) = [] := by
  cases xs with
  | nil => exact absurd rfl hne
  | cons a t =>
    have ha : p a = false := hx a (by simp)
    simp [List.takeWhile_cons, ha]

lemma takeWhile_cons_false {p : Nat → Bool} {y : Nat} (t : Bytes) (hy : p y = false) :
    ((y :: t).takeWhile p) = [] := by
  simp [List.takeWhile_cons, hy]

lemma dropWhile_eq_self_of_takeWhile_nil {p : Nat → Bool} {ys : Bytes}
    (h : ys.takeWhile p = []) : ys.dropWhile p = ys := by
  cases ys with
  | nil => rfl
  | cons y t =>
    rw [List.takeWhile_cons] at h
    by_cases hy : p y = true
    · simp [hy] at h
    · simp only [Bool.not_eq_true] at hy
      simp [List.dropWhile_cons, hy]

lemma pSpan_split {p : Nat → Bool} (xs ys : Bytes) (hne : xs ≠ [])
    (hall : ∀ b ∈ xs, p b = true) (hys : ys.takeWhile p = []) :
    pSpan p (xs ++ ys) = some (ys, xs) := by
  unfold pSpan
  rw [takeWhile_append_of_all xs ys hall, dropWhile_append_of_all xs ys hall,
    hys, dropWhile_eq_self_of_takeWhile_nil hys]
  simp [hne]

lemma pChar_cons (c : Nat) (x : Bytes) : pChar c (c :: x) = some x := by
  simp [pChar]

lemma pTag_line_space_append (xs ys : Bytes) (hne : xs ≠ [])
    (hall : ∀ b ∈ xs, isSpaceByte b = true) :
    pTag (strBytes "line") (xs ++ ys) = none := by
  cases xs with
  | nil => exact absurd rfl hne
  | cons a t =>
    exact pTag_line_space (t ++ ys) (hall a (by simp))

/-- The stem of parse_linemarker: hash, no "line" tag (a space follows), the
space-digits-space prefix, handing the rest to lmQuote. -/
lemma parse_linemarker_stem (sp1 ds sp2 rest : Bytes)
    (h1 : allSpaces sp1) (h2 : allDigits ds) (h3 : allSpaces sp2)
    (hdv : digitsToNat ds < 2 ^ 64)
    (hrest : rest.takeWhile isSpaceByte = []) :
    parse_linemarker (35 :: (sp1 ++ (ds ++ (sp2 ++ rest)))) =
      lmQuote (digitsToNat ds) rest := by
  obtain ⟨hne1, hall1⟩ := h1
  obtain ⟨hne2, hall2⟩ := h2
  obtain ⟨hne3, hall3⟩ := h3
  have hB : pTag (strBytes "line") (sp1 ++ (ds ++ (sp2 ++ rest))) = none :=
    pTag_line_space_append _ _ hne1 hall1
  have hC : pSpan isSpaceByte (sp1 ++ (ds ++ (sp2 ++ rest)))
      = some (ds ++ (sp2 ++ rest), sp1) :=
    pSpan_split _ _ hne1 hall1
      (takeWhile_nil_append _ _ hne2 (fun b hb => digit_not_space (hall2 b hb)))
  have hD : pSpan isDigitByte (ds ++ (sp2 ++ rest)) = some (sp2 ++ rest, ds) :=
    pSpan_split _ _ hne2 hall2
      (takeWhile_nil_append _ _ hne3 (fun b hb => space_not_digit (hall3 b hb)))
  have hE : fromStrNat ds = some (digitsToNat ds) := by
    unfold fromStrNat; rw [if_pos hdv]
  have hF : pSpan isSpaceByte (sp2 ++ rest) = some (rest, sp2) :=
    pSpan_split _ _ hne3 hall3 hrest
  unfold parse_linemarker
  rw [pChar_cons]
  simp only [hB, Option.getD_none, hC, hD, hE, hF]

/-- The stem of parse_linemarker when the "line" keyword is present. -/
lemma parse_linemarker_stem_line (sp1 ds sp2 rest : Bytes)
    (h1 : allSpaces sp1) (h2 : allDigits ds) (h3 : allSpaces sp2)
    (hdv : digitsToNat ds < 2 ^ 64)
    (hrest : rest.takeWhile isSpaceByte = []) :
    parse_linemarker (35 :: (strBytes "line" ++ (sp1 ++ (ds ++ (sp2 ++ rest))))) =
      lmQuote (digitsToNat ds) rest := by
  obtain ⟨hne1, hall1⟩ := h1
  obtain ⟨hne2, hall2⟩ := h2
  obtain ⟨hne3, hall3⟩ := h3
  have hB : pTag (strBytes "line") (strBytes "line" ++ (sp1 ++ (ds ++ (sp2 ++ rest))))
      = some (sp1 ++ (ds ++ (sp2 ++ rest))) := by
    unfold pTag
    rw [if_pos (List.isPrefixOf_iff_prefix.mpr (List.prefix_append _ _)),
      List.drop_left]
  have hC : pSpan isSpaceByte (sp1 ++ (ds ++ (sp2 ++ rest)))
      = some (ds ++ (sp2 ++ rest), sp1) :=
    pSpan_split _ _ hne1 hall1
      (takeWhile_nil_append _ _ hne2 (fun b hb => digit_not_space (hall2 b hb)))
  have hD : pSpan isDigitByte (ds ++ (sp2 ++ rest)) = some (sp2 ++ rest, ds) :=
    pSpan_split _ _ hne2 hall2
      (takeWhile_nil_append _ _ hne3 (fun b hb => space_not_digit (hall3 b hb)))
  have hE : fromStrNat ds = some (digitsToNat ds) := by
    unfold fromStrNat; rw [if_pos hdv]
  have hF : pSpan isSpaceByte (sp2 ++ rest) = some (rest, sp2) :=
    pSpan_split _ _ hne3 hall3 hrest
  unfold parse_linemarker
  rw [pChar_cons]
  simp only [hB, Option.getD_some, hC, hD, hE, hF]

/-- The quoted-path segment of parse_linemarker. -/
lemma lmQuote_path (line : Nat) (path tail : Bytes) (hpath : cleanPath path) :
    lmQuote line (34 :: (path ++ (34 :: tail))) = lmTail line path tail := by
  unfold lmQuote
  rw [pChar_cons]
  simp only [escape_c_string_clean path tail hpath, pChar_cons]

/-- The flag-and-line-ending tail of parse_linemarker when a flag is
present. -/
lemma lmTail_flag (line : Nat) (path sp3 fds : Bytes)
    (h3 : allSpaces sp3) (hf : allDigits fds) (hfv : digitsToNat fds < 2 ^ 64) :
    lmTail line path (sp3 ++ (fds ++ [10])) =
      match flagOf (digitsToNat fds) with
      | some f => .done [] ⟨line, path, some f⟩
      | none => .panicked := by
  obtain ⟨hne3, hall3⟩ := h3
  obtain ⟨hnef, hallf⟩ := hf
  have hA : pSpan isSpaceByte (sp3 ++ (fds ++ [10])) = some (fds ++ [10], sp3) :=
    pSpan_split _ _ hne3 hall3
      (takeWhile_nil_append _ _ hnef (fun b hb => digit_not_space (hallf b hb)))
  have hB : pSpan isDigitByte (fds ++ [10]) = some ([10], fds) := by
    have h10 : (([10] : Bytes)).takeWhile isDigitByte = [] := by decide
    exact pSpan_split _ _ hnef hallf h10
  have hC : fromStrNat fds = some (digitsToNat fds) := by
    unfold fromStrNat; rw [if_pos hfv]
  have hOpt : optFlag (sp3 ++ (fds ++ [10])) = ([10], some (digitsToNat fds)) := by
    unfold optFlag
    simp [hA, hB, hC]
  unfold lmTail
  rw [hOpt]
  simp [lineEnding]

/-- The flag-and-line-ending tail of parse_linemarker with no flag. -/
lemma lmTail_noflag (line : Nat) (path : Bytes) :
    lmTail line path [10] = .done [] ⟨line, path, none⟩ := rfl

/-- C7 (amended): for inputs of the linemarker form (with or without the
optional line keyword), parse_linemarker maps flag digits 1, 2, 3, 4 to
Start, Return, System, Extern; with no flag present the flag field is None;
the two concrete spec examples hold; but a flag value outside 1..4 reaches
the unreachable!() arm of the flag match, i.e. a runtime panic, rather than a
parse failure. -/
theorem parse_linemarker_flag_decoding :
    (∀ sp1 ds sp2 path sp3 fds : Bytes, allSpaces sp1 → allDigits ds →
      allSpaces sp2 → cleanPath path → allSpaces sp3 → allDigits fds →
      digitsToNat ds < 2 ^ 64 → digitsToNat fds < 2 ^ 64 →
      parse_linemarker (35 :: (sp1 ++ (ds ++ (sp2 ++
          (34 :: (path ++ (34 :: (sp3 ++ (fds ++ [10]))))))))) =
        match flagOf (digitsToNat fds) with
        | some f => .done [] ⟨digitsToNat ds, path, some f⟩
        | none => .panicked)
    ∧ (∀ sp1 ds sp2 path : Bytes, allSpaces sp1 → allDigits ds →
      allSpaces sp2 → cleanPath path → digitsToNat ds < 2 ^ 64 →
      parse_linemarker (35 :: (sp1 ++ (ds ++ (sp2 ++
          (34 :: (path ++ (34 :: [10]))))))) =
        .done [] ⟨digitsToNat ds, path, none⟩)
    ∧ (∀ sp1 ds sp2 path sp3 fds : Bytes, allSpaces sp1 → allDigits ds →
      allSpaces sp2 → cleanPath path → allSpaces sp3 → allDigits fds →
      digitsToNat ds < 2 ^ 64 → digitsToNat fds < 2 ^ 64 →
      parse_linemarker (35 :: (strBytes "line" ++ (sp1 ++ (ds ++ (sp2 ++
          (34 :: (path ++ (34 :: (sp3 ++ (fds ++ [10])))))))))) =
        match flagOf (digitsToNat fds) with
        | some f => .done [] ⟨digitsToNat ds, path, some f⟩
        | none => .panicked)
    ∧ flagOf 1 = some .Start ∧ flagOf 2 = some .Return
    ∧ flagOf 3 = some .System ∧ flagOf 4 = some .Extern
    ∧ (∀ v, v ≠ 1 → v ≠ 2 → v ≠ 3 → v ≠ 4 → flagOf v = none)
    ∧ parse_linemarker (strBytes "# 1 \"<built-in>\"\n")
        = .done [] ⟨1, strBytes "<built-in>", none⟩
    ∧ parse_linemarker (strBytes "# 12 \"am33xx.dtsi\" 2\n")
        = .done [] ⟨12, strBytes "am33xx.dtsi", some .Return⟩
    ∧ parse_linemarker (strBytes "# 1 \"a\" 5\n") = .panicked := by
  refine ⟨?_, ?_, ?_, by decide, by decide, by decide, by decide, ?_,
    by decide, by decide, by decide⟩
  · intro sp1 ds sp2 path sp3 fds h1 h2 h3 hp h4 h5 hdv hfv
    rw [parse_linemarker_stem sp1 ds sp2 _ h1 h2 h3 hdv
        (takeWhile_cons_false _ (by decide)),
      lmQuote_path _ path _ hp, lmTail_flag _ path sp3 fds h4 h5 hfv]
  · intro sp1 ds sp2 path h1 h2 h3 hp hdv
    rw [parse_linemarker_stem sp1 ds sp2 _ h1 h2 h3 hdv
        (takeWhile_cons_false _ (by decide)),
      lmQuote_path _ path _ hp, lmTail_noflag]
  · intro sp1 ds sp2 path sp3 fds h1 h2 h3 hp h4 h5 hdv hfv
    rw [parse_linemarker_stem_line sp1 ds sp2 _ h1 h2 h3 hdv
        (takeWhile_cons_false _ (by decide)),
      lmQuote_path _ path _ hp, lmTail_flag _ path sp3 fds h4 h5 hfv]
  · intro v h1 h2 h3 h4
    unfold flagOf
    rw [if_neg h1, if_neg h2, if_neg h3, if_neg h4]

/-- Witness for C7 at a concrete input: flag digit 5 yields the panic
outcome. -/
theorem parse_linemarker_flag_decoding_witness :
    allSpaces [32] ∧ allDigits [49] ∧ cleanPath [97] ∧ allDigits [53]
    ∧ parse_linemarker (35 :: (([32] : Bytes) ++ ([49] ++ ([32] ++
        (34 :: ([97] ++ (34 :: ([32] ++ ([53] ++ [10]))))))))) = .panicked := by
  refine ⟨by decide, by decide, by decide, by decide, ?_⟩
  have h := parse_linemarker_flag_decoding.1 [32] [49] [32] [97] [32] [53]
    (by decide) (by decide) (by decide) (by decide) (by decide) (by decide)
    (by decide) (by decide)
  simpa using h

/-- Counterexample for C7 as stated: on a linemarker line carrying the flag
digit 5, the recognizer does not return a parse failure; it reaches the
unreachable!() assertion (a panic). -/
theorem parse_linemarker_flag5_not_fail :
    parse_linemarker (strBytes "# 1 \"a\" 5\n") = .panicked
    ∧ LmResult.panicked ≠ LmResult.fail := by
  exact ⟨by decide, by decide⟩

/-! ## IncludeBounds and split_bounds (include.rs lines 76-191, lib.rs 34-107) -/

/-- The inclusion method of a bound (include.rs lines 85-93). -/
inductive IncludeMethod where
  | DTS
  | CPP
deriving DecidableEq

/-- An IncludeBounds record (include.rs lines 76-83).  Paths are byte
sequences. -/
structure IncludeBounds where
  path : Bytes
  global_start : Nat
  child_start : Nat
  len : Nat
  method : IncludeMethod
deriving DecidableEq

/-- end(): global_start + len, exclusive (include.rs lines 129-131). -/
def bEnd (b : IncludeBounds) : Nat := b.global_start + b.len

/-- The Ord impl of IncludeBounds (include.rs lines 101-109): by start(),
ties broken by end(). -/
def boundLE (a b : IncludeBounds) : Bool :=
  decide (a.global_start < b.global_start)
  || (decide (a.global_start = b.global_start) && decide (bEnd a ≤ bEnd b))

/-- Stable insertion of a bound into a list sorted by boundLE, placing the new
element after existing equal elements it is inserted past; the resulting sort
is the unique stable sort by the Ord impl, hence agrees with Vec::sort (a
stable merge sort). -/
def insertBound (x : IncludeBounds) : List IncludeBounds → List IncludeBounds
  | [] => [x]
  | c :: rest => if boundLE x c then x :: c :: rest else c :: insertBound x rest

/-- Vec::sort on bounds: stable sort by the Ord impl. -/
def sortBounds (l : List IncludeBounds) : List IncludeBounds :=
  l.foldr insertBound []

/-- Embedding of IncludeBounds::split_bounds (include.rs lines 155-191).
For each bound: if start() < start <= end(), the bound is truncated to end at
start and a remainder bound is collected, whose child_start is the source
expression b.start() + start - b.start() + offset (which equals
start + offset); if start() == start the bound is shifted by end - start and
its len reduced by the offset argument.  Collected remainders are appended and
the vector re-sorted.  The usize subtractions cannot underflow in the
straddling branch (start <= end() and start() < start there); the
b.len -= offset subtraction of the equal-start branch is modelled truncated. -/
def split_bounds (bounds : List IncludeBounds) (start end_ offset : Nat) :
    List IncludeBounds :=
  let step := bounds.map (fun b =>
    if b.global_start < start ∧ start ≤ bEnd b then
      ({ b with len := start - b.global_start },
        some { path := b.path,
               global_start := end_,
               child_start := b.global_start + start - b.global_start + offset,
               len := bEnd b - start,
               method := b.method })
    else if b.global_start = start then
      ({ b with global_start := b.global_start + (end_ - start),
                len := b.len - offset }, none)
    else (b, none))
  sortBounds (step.map Prod.fst ++ step.filterMap Prod.snd)

/-- Embedding of the older copy IncludeBounds::split_bounds in lib.rs lines
70-106, which is identical except that the remainder child_start is
b.child_start + start - b.global_start + offset. -/
def split_bounds_lib (bounds : List IncludeBounds) (start end_ offset : Nat) :
    List IncludeBounds :=
  let step := bounds.map (fun b =>
    if b.global_start < start ∧ start ≤ bEnd b then
      ({ b with len := start - b.global_start },
        some { path := b.path,
               global_start := end_,
               child_start := b.child_start + start - b.global_start + offset,
               len := bEnd b - start,
               method := b.method })
    else if b.global_start = start then
      ({ b with global_start := b.global_start + (end_ - start),
                len := b.len - offset }, none)
    else (b, none))
  sortBounds (step.map Prod.fst ++ step.filterMap Prod.snd)

/-- C1: evaluation of split_bounds at inputs deciding the claim.  At the
spec example (global_start = child_start = 0) the two produced bounds match
the claim, but at a bound with global_start 10 and child_start 0 the
remainder child_start computed by include.rs is start + offset = 60, not the
claimed b.child_start + (start - b.global_start) + offset = 50; the older
copy in lib.rs computes 50. -/
theorem split_bounds_eval :
    split_bounds [⟨strBytes "X", 10, 0, 100, .DTS⟩] 40 45 20
      = [⟨strBytes "X", 10, 0, 30, .DTS⟩, ⟨strBytes "X", 45, 60, 70, .DTS⟩]
    ∧ (60 : Nat) ≠ 0 + (40 - 10) + 20
    ∧ split_bounds_lib [⟨strBytes "X", 10, 0, 100, .DTS⟩] 40 45 20
      = [⟨strBytes "X", 10, 0, 30, .DTS⟩, ⟨strBytes "X", 45, 50, 70, .DTS⟩]
    ∧ split_bounds [⟨strBytes "X", 0, 0, 100, .DTS⟩] 40 (40 + 5) 20
      = [⟨strBytes "X", 0, 0, 40, .DTS⟩, ⟨strBytes "X", 45, 60, 60, .DTS⟩]
    ∧ split_bounds_lib [⟨strBytes "X", 0, 0, 100, .DTS⟩] 40 (40 + 5) 20
      = [⟨strBytes "X", 0, 0, 40, .DTS⟩, ⟨strBytes "X", 45, 60, 60, .DTS⟩] :=
  ⟨by decide, by decide, by decide, by decide, by decide⟩

/-! ## get_bounds_containing_offset (include.rs lines 243-262) -/

/-- The single error this lookup can produce. -/
inductive BoundsError where
  | NotWithinBounds
deriving DecidableEq

/-- The comparator closure of get_bounds_containing_offset (include.rs lines
250-257): Equal iff start <= offset < end, Greater iff start > offset, Less
otherwise.  The two (Greater, Less/Equal) arms are unreachable!() in the
source since end >= start always; they are mapped to gt here (and proved
impossible where used). -/
def boundCmp (offset : Nat) (b : IncludeBounds) : Ordering :=
  match compare b.global_start offset, compare (bEnd b) offset with
  | .lt, .gt => .eq
  | .eq, .gt => .eq
  | .gt, _ => .gt
  | .eq, .lt => .lt
  | .lt, .lt => .lt
  | .lt, .eq => .lt
  | .eq, .eq => .lt

/-- The slice binary_search_by of the Rust standard library, on lists: split
the slice in half, compare the first element of the tail half, and recurse
left or right.  The fuel argument only bounds the iteration count; length + 1
is always sufficient since each step strictly shrinks the slice. -/
def bsGo {α : Type} (f : α → Ordering) : Nat → List α → Nat → Option Nat
  | 0, _, _ => none
  | fuel + 1, s, base =>
    let head := s.take (s.length / 2)
    match s.drop (s.length / 2) with
    | [] => none
    | t :: ts =>
      match f t with
      | .lt => bsGo f fuel ts (base + head.length + 1)
      | .gt => bsGo f fuel head base
      | .eq => some (base + head.length)

/-- slice::binary_search_by, returning the found index. -/
def binary_search_by {α : Type} (f : α → Ordering) (s : List α) : Option Nat :=
  bsGo f (s.length + 1) s 0

/-- Embedding of get_bounds_containing_offset (include.rs lines 247-262).
The impossible out-of-range index (binary search only returns valid indices)
is collapsed to the error case. -/
def get_bounds_containing_offset (bounds : List IncludeBounds) (offset : Nat) :
    Except BoundsError IncludeBounds :=
  match binary_search_by (boundCmp offset) bounds with
  | some i =>
    match bounds[i]? with
    | some b => .ok b
    | none => .error .NotWithinBounds
  | none => .error .NotWithinBounds

/-- b contains the offset: global_start <= offset < end. -/
def containsOff (b : IncludeBounds) (off : Nat) : Prop :=
  b.global_start ≤ off ∧ off < bEnd b

instance (b : IncludeBounds) (off : Nat) : Decidable (containsOff b off) := by
  unfold containsOff; infer_instance

/-- Sortedness per the Ord impl: ascending global_start, ties broken by
end. -/
def sortedBounds (l : List IncludeBounds) : Prop :=
  l.Pairwise (fun a b => boundLE a b = true)

/-- Two bounds are non-overlapping: no offset lies in both half-open
intervals. -/
def noCommonOffset (a b : IncludeBounds) : Prop :=
  ∀ x : Nat, ¬ (containsOff a x ∧ containsOff b x)

lemma noCommonOffset_iff (a b : IncludeBounds) :
    noCommonOffset a b ↔
      (bEnd a ≤ b.global_start ∨ bEnd b ≤ a.global_start
        ∨ a.len = 0 ∨ b.len = 0) := by
  constructor
  · intro h
    by_contra hc
    push_neg at hc
    obtain ⟨h1, h2, h3, h4⟩ := hc
    exact h (max a.global_start b.global_start)
      ⟨⟨by omega, by unfold bEnd at *; omega⟩,
       ⟨by omega, by unfold bEnd at *; omega⟩⟩
  · rintro (h | h | h | h) x ⟨⟨ha1, ha2⟩, hb1, hb2⟩ <;> unfold bEnd at * <;> omega

instance (a b : IncludeBounds) : Decidable (noCommonOffset a b) :=
  decidable_of_iff _ (noCommonOffset_iff a b).symm

/-- Pairwise disjointness of the half-open intervals. -/
def disjointBounds (l : List IncludeBounds) : Prop :=
  l.Pairwise noCommonOffset

instance (l : List IncludeBounds) : Decidable (sortedBounds l) := by
  unfold sortedBounds; infer_instance

instance (l : List IncludeBounds) : Decidable (disjointBounds l) := by
  unfold disjointBounds; infer_instance

instance {e a : Type} [DecidableEq e] [DecidableEq a] : DecidableEq (Except e a) :=
  fun x y =>
    match x, y with
    | .ok v, .ok w =>
      if h : v = w then isTrue (by rw [h]) else
        isFalse (by intro hc; injection hc; contradiction)
    | .error v, .error w =>
      if h : v = w then isTrue (by rw [h]) else
        isFalse (by intro hc; injection hc; contradiction)
    | .ok _, .error _ => isFalse (fun hc => Except.noConfusion hc)
    | .error _, .ok _ => isFalse (fun hc => Except.noConfusion hc)

lemma boundCmp_spec (off : Nat) (b : IncludeBounds) :
    (boundCmp off b = .eq ↔ (b.global_start ≤ off ∧ off < bEnd b))
    ∧ (boundCmp off b = .gt ↔ off < b.global_start)
    ∧ (boundCmp off b = .lt ↔ (b.global_start ≤ off ∧ bEnd b ≤ off)) := by
  have hcmp : ∀ a c : Nat, compare a c =
      if a < c then Ordering.lt else if a = c then Ordering.eq else Ordering.gt := by
    intro a c
    rcases lt_trichotomy a c with h | h | h
    · rw [Nat.compare_eq_lt.mpr h, if_pos h]
    · rw [Nat.compare_eq_eq.mpr h, if_neg (by omega), if_pos h]
    · rw [Nat.compare_eq_gt.mpr h, if_neg (by omega), if_neg (by omega)]
  unfold boundCmp
  rw [hcmp, hcmp]
  split_ifs <;> simp <;> omega

/-- Rank of a comparator outcome: lt < eq < gt along the slice. -/
def rank : Ordering → Nat
  | .lt => 0
  | .eq => 1
  | .gt => 2

/-- The comparator outcomes are monotone along the list. -/
def MonoCmp {α : Type} (f : α → Ordering) (s : List α) : Prop :=
  ∀ (i j : Nat) (b c : α), i ≤ j → s[i]? = some b → s[j]? = some c →
    rank (f b) ≤ rank (f c)

lemma rank_le_two (o : Ordering) : rank o ≤ 2 := by cases o <;> simp [rank]

lemma separated_of_sorted_disjoint {l : List IncludeBounds}
    (hs : sortedBounds l) (hd : disjointBounds l)
    (hpos : ∀ b ∈ l, 0 < b.len) :
    l.Pairwise (fun a b => bEnd a ≤ b.global_start) := by
  refine (hs.and hd).imp_of_mem ?_
  intro a b ha hb hab
  obtain ⟨hle, hdisj⟩ := hab
  have hpa := hpos a ha
  have hpb := hpos b hb
  rcases (noCommonOffset_iff a b).mp hdisj with h | h | h | h
  · exact h
  · exfalso
    simp only [boundLE, Bool.or_eq_true, Bool.and_eq_true, decide_eq_true_eq] at hle
    unfold bEnd at h hle
    omega
  · omega
  · omega

lemma monoCmp_of_separated (off : Nat) (l : List IncludeBounds)
    (hsep : l.Pairwise (fun a b => bEnd a ≤ b.global_start))
    (hpos : ∀ b ∈ l, 0 < b.len) : MonoCmp (boundCmp off) l := by
  unfold MonoCmp
  intro i j b c hij hbi hcj
  rcases Nat.lt_or_ge i j with hlt | hge
  · obtain ⟨hi, hbeq⟩ := List.getElem?_eq_some_iff.mp hbi
    obtain ⟨hj, hceq⟩ := List.getElem?_eq_some_iff.mp hcj
    have hbc : bEnd l[i] ≤ l[j].global_start :=
      List.pairwise_iff_getElem.mp hsep i j hi hj hlt
    rw [hbeq, hceq] at hbc
    have hbmem : b ∈ l := hbeq ▸ List.getElem_mem hi
    have hposb := hpos b hbmem
    cases hc : boundCmp off c with
    | gt => exact le_trans (rank_le_two _) (by simp [rank])
    | eq =>
      obtain ⟨hc1, _⟩ := (boundCmp_spec off c).1.mp hc
      have hbres : boundCmp off b = .lt := by
        refine (boundCmp_spec off b).2.2.mpr ?_
        unfold bEnd at *
        omega
      rw [hbres]
      simp [rank]
    | lt =>
      obtain ⟨hc1, hc2⟩ := (boundCmp_spec off c).2.2.mp hc
      have hbres : boundCmp off b = .lt := by
        refine (boundCmp_spec off b).2.2.mpr ?_
        unfold bEnd at *
        omega
      rw [hbres]
  · have heq : i = j := by omega
    subst heq
    rw [hbi] at hcj
    injection hcj with h
    subst h
    exact le_refl _

lemma bsGo_some {α : Type} (f : α → Ordering) :
    ∀ fuel (s : List α) base i, bsGo f fuel s base = some i →
      ∃ k, k < s.length ∧ i = base + k
        ∧ ∃ b, s[k]? = some b ∧ f b = .eq := by
  intro fuel
  induction fuel with
  | zero => intro s base i h; simp [bsGo] at h
  | succ fuel ih =>
    intro s base i h
    rw [bsGo] at h
    rcases hdrop : s.drop (s.length / 2) with _ | ⟨t, ts⟩
    · rw [hdrop] at h; exact absurd h (by simp)
    · have hm : s.length / 2 < s.length := by
        by_contra hcon
        push_neg at hcon
        rw [List.drop_eq_nil_of_le hcon] at hdrop
        simp at hdrop
      have hhead : (s.take (s.length / 2)).length = s.length / 2 := by
        rw [List.length_take]; omega
      have hts : ts = s.drop (s.length / 2 + 1) := by
        have hdd : s.drop (s.length / 2 + 1) = (s.drop (s.length / 2)).drop 1 := by
          rw [List.drop_drop]
        rw [hdd, hdrop]
        simp
      have htm : s[s.length / 2]? = some t := by
        have hd0 := List.getElem?_drop s (s.length / 2) 0
        rw [hdrop] at hd0
        simpa using hd0.symm
      cases hf : f t with
      | lt =>
        simp only [hdrop, hf, hhead] at h
        obtain ⟨k, hk, hik, b, hb, hfb⟩ := ih ts _ i h
        have htslen : ts.length = s.length - (s.length / 2) - 1 := by
          rw [hts, List.length_drop]
          omega
        refine ⟨s.length / 2 + 1 + k, by omega, by omega, b, ?_, hfb⟩
        rw [hts] at hb
        rw [List.getElem?_drop] at hb
        exact hb
      | gt =>
        simp only [hdrop, hf] at h
        obtain ⟨k, hk, hik, b, hb, hfb⟩ := ih _ _ i h
        rw [hhead] at hk
        refine ⟨k, by omega, hik, b, ?_, hfb⟩
        rw [List.getElem?_take, if_pos hk] at hb
        exact hb
      | eq =>
        simp only [hdrop, hf, hhead, Option.some_inj] at h
        exact ⟨s.length / 2, hm, by omega, t, htm, hf⟩

lemma bsGo_complete {α : Type} (f : α → Ordering) :
    ∀ fuel (s : List α) base, s.length < fuel → MonoCmp f s →
      (∃ (k : Nat) (b : α), s[k]? = some b ∧ f b = .eq) →
      ∃ i, bsGo f fuel s base = some i := by
  intro fuel
  induction fuel with
  | zero => intro s base hfuel _ _; omega
  | succ fuel ih =>
    intro s base hfuel hmono hex
    obtain ⟨k, b, hkb, hfb⟩ := hex
    rcases hdrop : s.drop (s.length / 2) with _ | ⟨t, ts⟩
    · exfalso
      have hlen0 : s.length = 0 := by
        have hle := List.drop_eq_nil_iff.mp hdrop
        omega
      rw [List.eq_nil_of_length_eq_zero hlen0] at hkb
      simp at hkb
    · have hm : s.length / 2 < s.length := by
        by_contra hcon
        push_neg at hcon
        rw [List.drop_eq_nil_of_le hcon] at hdrop
        simp at hdrop
      have hhead : (s.take (s.length / 2)).length = s.length / 2 := by
        rw [List.length_take]; omega
      have hts : ts = s.drop (s.length / 2 + 1) := by
        have hdd : s.drop (s.length / 2 + 1) = (s.drop (s.length / 2)).drop 1 := by
          rw [List.drop_drop]
        rw [hdd, hdrop]
        simp
      have htm : s[s.length / 2]? = some t := by
        have hd0 := List.getElem?_drop s (s.length / 2) 0
        rw [hdrop] at hd0
        simpa using hd0.symm
      have hkl : k < s.length := (List.getElem?_eq_some_iff.mp hkb).1
      cases hf : f t with
      | eq =>
        refine ⟨base + (s.take (s.length / 2)).length, ?_⟩
        rw [bsGo]
        simp only [hdrop, hf]
      | lt =>
        have hkm : s.length / 2 < k := by
          by_contra hcon
          push_neg at hcon
          have hr := hmono k (s.length / 2) b t hcon hkb htm
          rw [hfb, hf] at hr
          simp [rank] at hr
        have hb2 : ts[k - (s.length / 2) - 1]? = some b := by
          rw [hts, List.getElem?_drop]
          have harith : s.length / 2 + 1 + (k - s.length / 2 - 1) = k := by omega
          rw [harith]
          exact hkb
        have hmono2 : MonoCmp f ts := by
          unfold MonoCmp
          intro i j b2 c2 hij hbi hcj
          rw [hts, List.getElem?_drop] at hbi hcj
          exact hmono _ _ _ _ (by omega) hbi hcj
        have htslen : ts.length = s.length - s.length / 2 - 1 := by
          rw [hts, List.length_drop]
          omega
        obtain ⟨i, hi⟩ := ih ts (base + (s.take (s.length / 2)).length + 1)
          (by omega) hmono2 ⟨_, b, hb2, hfb⟩
        refine ⟨i, ?_⟩
        rw [bsGo]
        simp only [hdrop, hf]
        exact hi
      | gt =>
        have hkm : k < s.length / 2 := by
          by_contra hcon
          push_neg at hcon
          have hr := hmono (s.length / 2) k t b hcon htm hkb
          rw [hfb, hf] at hr
          simp [rank] at hr
        have hb2 : (s.take (s.length / 2))[k]? = some b := by
          rw [List.getElem?_take, if_pos hkm]
          exact hkb
        have hmono2 : MonoCmp f (s.take (s.length / 2)) := by
          unfold MonoCmp
          intro i j b2 c2 hij hbi hcj
          rw [List.getElem?_take] at hbi hcj
          by_cases hi2 : i < s.length / 2
          · rw [if_pos hi2] at hbi
            by_cases hj2 : j < s.length / 2
            · rw [if_pos hj2] at hcj
              exact hmono _ _ _ _ hij hbi hcj
            · rw [if_neg hj2] at hcj
              exact absurd hcj (by simp)
          · rw [if_neg hi2] at hbi
            exact absurd hbi (by simp)
        obtain ⟨i, hi⟩ := ih (s.take (s.length / 2)) base
          (by rw [hhead]; omega) hmono2 ⟨k, b, hb2, hfb⟩
        refine ⟨i, ?_⟩
        rw [bsGo]
        simp only [hdrop, hf]
        exact hi

/-- C4 (amended): for bounds that are sorted, pairwise disjoint, and all of
positive length, get_bounds_containing_offset returns a bound b only if
b.global_start <= offset < b.end; whenever some bound contains the offset it
returns such a bound; and it returns NotWithinBounds exactly when no bound
contains the offset (for example when offset >= buffer length under
coverage). -/
theorem get_bounds_containing_offset_correct (bounds : List IncludeBounds)
    (off : Nat) (hs : sortedBounds bounds) (hd : disjointBounds bounds)
    (hpos : ∀ b ∈ bounds, 0 < b.len) :
    (∀ b, get_bounds_containing_offset bounds off = .ok b →
      b ∈ bounds ∧ containsOff b off)
    ∧ ((∃ b ∈ bounds, containsOff b off) →
      ∃ b, get_bounds_containing_offset bounds off = .ok b ∧ containsOff b off)
    ∧ ((∀ b ∈ bounds, ¬ containsOff b off) →
      get_bounds_containing_offset bounds off = .error .NotWithinBounds) := by
  have hsep := separated_of_sorted_disjoint hs hd hpos
  have hmono := monoCmp_of_separated off bounds hsep hpos
  refine ⟨?_, ?_, ?_⟩
  · intro b hok
    unfold get_bounds_containing_offset at hok
    cases hbs : binary_search_by (boundCmp off) bounds with
    | none => rw [hbs] at hok; exact absurd hok (by simp)
    | some i =>
      rw [hbs] at hok
      unfold binary_search_by at hbs
      obtain ⟨k, hk, hik, b0, hb0, hfb0⟩ := bsGo_some _ _ _ _ _ hbs
      have hbi : bounds[i]? = some b0 := by rw [hik]; simpa using hb0
      simp only [hbi] at hok
      have hbb : b0 = b := by injection hok
      subst hbb
      refine ⟨?_, (boundCmp_spec off b0).1.mp hfb0⟩
      obtain ⟨hlt, hbeq⟩ := List.getElem?_eq_some_iff.mp hb0
      exact hbeq ▸ List.getElem_mem hlt
  · rintro ⟨b, hmem, hcont⟩
    have hfb : boundCmp off b = .eq := (boundCmp_spec off b).1.mpr hcont
    obtain ⟨k, hk, hbk⟩ := List.mem_iff_getElem.mp hmem
    have hbk2 : bounds[k]? = some b := List.getElem?_eq_some_iff.mpr ⟨hk, hbk⟩
    obtain ⟨i, hi⟩ := bsGo_complete (boundCmp off) (bounds.length + 1) bounds 0
      (by omega) hmono ⟨k, b, hbk2, hfb⟩
    obtain ⟨k2, hk2, hik2, b2, hb2, hfb2⟩ := bsGo_some _ _ _ _ _ hi
    refine ⟨b2, ?_, (boundCmp_spec off b2).1.mp hfb2⟩
    unfold get_bounds_containing_offset binary_search_by
    rw [hi]
    have hbi : bounds[i]? = some b2 := by rw [hik2]; simpa using hb2
    simp only [hbi]
  · intro hnone
    cases hbs : binary_search_by (boundCmp off) bounds with
    | some i =>
      exfalso
      unfold binary_search_by at hbs
      obtain ⟨k, hk, hik, b, hb, hfb⟩ := bsGo_some _ _ _ _ _ hbs
      have hcont := (boundCmp_spec off b).1.mp hfb
      obtain ⟨hlt, hbeq⟩ := List.getElem?_eq_some_iff.mp hb
      exact hnone b (hbeq ▸ List.getElem_mem hlt) hcont
    | none =>
      unfold get_bounds_containing_offset
      rw [hbs]

/-- Witness for C4 (amended) at a concrete input: the lookup returns the
bound containing offset 6, and the theorem certifies its containment. -/
theorem get_bounds_containing_offset_correct_witness :
    sortedBounds [⟨strBytes "X", 0, 0, 5, .DTS⟩, ⟨strBytes "Y", 5, 0, 3, .DTS⟩]
    ∧ disjointBounds [⟨strBytes "X", 0, 0, 5, .DTS⟩, ⟨strBytes "Y", 5, 0, 3, .DTS⟩]
    ∧ get_bounds_containing_offset
        [⟨strBytes "X", 0, 0, 5, .DTS⟩, ⟨strBytes "Y", 5, 0, 3, .DTS⟩] 6
        = .ok ⟨strBytes "Y", 5, 0, 3, .DTS⟩
    ∧ containsOff ⟨strBytes "Y", 5, 0, 3, .DTS⟩ 6 := by
  have heval : get_bounds_containing_offset
      [⟨strBytes "X", 0, 0, 5, .DTS⟩, ⟨strBytes "Y", 5, 0, 3, .DTS⟩] 6
      = .ok ⟨strBytes "Y", 5, 0, 3, .DTS⟩ := by decide
  refine ⟨by decide, by decide, heval, ?_⟩
  exact ((get_bounds_containing_offset_correct
    [⟨strBytes "X", 0, 0, 5, .DTS⟩, ⟨strBytes "Y", 5, 0, 3, .DTS⟩] 6
    (by decide) (by decide) (by decide)).1 _ heval).2

/-- Counterexample for C4 as stated: a sorted, non-overlapping slice that
holds a zero-length bound.  The bound [0, 5) contains offset 4, yet the
binary search walks right past it and reports NotWithinBounds, because the
zero-length bound [3, 3) compares Less against offset 4 and sits after the
containing bound. -/
theorem get_bounds_containing_offset_zero_len_counterexample :
    sortedBounds [⟨strBytes "X", 0, 0, 5, .DTS⟩, ⟨strBytes "X", 3, 0, 0, .DTS⟩]
    ∧ disjointBounds [⟨strBytes "X", 0, 0, 5, .DTS⟩, ⟨strBytes "X", 3, 0, 0, .DTS⟩]
    ∧ (⟨strBytes "X", 0, 0, 5, .DTS⟩ : IncludeBounds)
        ∈ [⟨strBytes "X", 0, 0, 5, .DTS⟩, ⟨strBytes "X", 3, 0, 0, .DTS⟩]
    ∧ containsOff ⟨strBytes "X", 0, 0, 5, .DTS⟩ 4
    ∧ get_bounds_containing_offset
        [⟨strBytes "X", 0, 0, 5, .DTS⟩, ⟨strBytes "X", 3, 0, 0, .DTS⟩] 4
        = .error .NotWithinBounds := by
  exact ⟨by decide, by decide, by decide, by decide, by decide⟩

/-! ## Consumption lemmas for the parsers -/

lemma dropWhile_length_le (p : Nat → Bool) :
    ∀ l : Bytes, (l.dropWhile p).length ≤ l.length := by
  intro l
  induction l with
  | nil => simp
  | cons a t ih =>
    rw [List.dropWhile_cons]
    split
    · exact le_trans ih (by simp)
    · exact le_refl _

lemma pChar_some_length {c : Nat} {i r : Bytes} (h : pChar c i = some r) :
    r.length < i.length := by
  cases i with
  | nil => simp [pChar] at h
  | cons b t =>
    simp only [pChar] at h
    by_cases hb : b = c
    · rw [if_pos hb] at h
      injection h with h
      subst h
      simp
    · rw [if_neg hb] at h
      exact absurd h (by simp)

lemma pSpan_some_length {p : Nat → Bool} {i r v : Bytes}
    (h : pSpan p i = some (r, v)) : r.length ≤ i.length := by
  unfold pSpan at h
  split at h
  · exact absurd h (by simp)
  · injection h with h
    have h1 : List.dropWhile p i = r := congrArg Prod.fst h
    rw [← h1]
    exact dropWhile_length_le p i

lemma pTag_some_length {t i r : Bytes} (h : pTag t i = some r) :
    r.length ≤ i.length := by
  unfold pTag at h
  split at h
  · injection h with h
    rw [← h, List.length_drop]
    omega
  · exact absurd h (by simp)

lemma escape_some_length_aux :
    ∀ (n : Nat) (i : Bytes), i.length ≤ n → ∀ r v,
      escape_c_string i = some (r, v) → r.length ≤ i.length := by
  intro n
  induction n with
  | zero =>
    intro i hi r v h
    have hnil : i = [] := List.eq_nil_of_length_eq_zero (by omega)
    subst hnil
    unfold escape_c_string at h
    injection h with h
    have h1 : ([] : Bytes) = r := congrArg Prod.fst h
    rw [← h1]
  | succ n ih =>
    intro i hi r v h
    cases i with
    | nil =>
      unfold escape_c_string at h
      injection h with h
      have h1 : ([] : Bytes) = r := congrArg Prod.fst h
      rw [← h1]
    | cons b rest =>
      unfold escape_c_string at h
      by_cases h34 : b = 34
      · rw [if_pos h34] at h
        injection h with h
        have h1 : b :: rest = r := congrArg Prod.fst h
        rw [← h1]
      · rw [if_neg h34] at h
        by_cases h92 : b = 92
        · rw [if_pos h92] at h
          cases rest with
          | nil => exact absurd h (by simp)
          | cons e rest2 =>
            cases hrec : escape_c_string rest2 with
            | none => simp only [hrec] at h; exact absurd h (by simp)
            | some p =>
              obtain ⟨r2, v2⟩ := p
              simp only [hrec] at h
              have h2 : ((r2 : Bytes), unescapeByte e :: v2) = (r, v) :=
                Option.some.inj h
              have h1 : r2 = r := congrArg Prod.fst h2
              have hrl := ih rest2 (by simp at hi ⊢; omega) r2 v2 hrec
              rw [← h1]
              simp at hrl ⊢
              omega
        · rw [if_neg h92] at h
          cases hrec : escape_c_string rest with
          | none => simp only [hrec] at h; exact absurd h (by simp)
          | some p =>
            obtain ⟨r2, v2⟩ := p
            simp only [hrec] at h
            have h2 : ((r2 : Bytes), b :: v2) = (r, v) := Option.some.inj h
            have h1 : r2 = r := congrArg Prod.fst h2
            have hrl := ih rest (by simp at hi ⊢; omega) r2 v2 hrec
            rw [← h1]
            simp at hrl ⊢
            omega

lemma escape_some_length {i r v : Bytes} (h : escape_c_string i = some (r, v)) :
    r.length ≤ i.length :=
  escape_some_length_aux i.length i (le_refl _) r v h

lemma lineEnding_some_length {i r : Bytes} (h : lineEnding i = some r) :
    r.length < i.length := by
  unfold lineEnding at h
  split at h
  · exact absurd h (by simp)
  · split at h
    · injection h with h
      subst h
      simp only [List.length_cons]
      omega
    · split at h
      · split at h
        · exact absurd h (by simp)
        · split at h
          · injection h with h
            subst h
            simp only [List.length_cons]
            omega
          · exact absurd h (by simp)
      · exact absurd h (by simp)

lemma optFlag_fst_length (i : Bytes) : (optFlag i).1.length ≤ i.length := by
  cases h1 : pSpan isSpaceByte i with
  | none => unfold optFlag; simp [h1]
  | some p1 =>
    obtain ⟨j1, v1⟩ := p1
    cases h2 : pSpan isDigitByte j1 with
    | none => unfold optFlag; simp [h1, h2]
    | some p2 =>
      obtain ⟨j2, v2⟩ := p2
      cases h3 : fromStrNat v2 with
      | none => unfold optFlag; simp [h1, h2, h3]
      | some w =>
        have e1 := pSpan_some_length h1
        have e2 := pSpan_some_length h2
        have hopt : (optFlag i).1 = j2 := by
          unfold optFlag
          simp [h1, h2, h3]
        rw [hopt]
        omega

lemma lmTail_done_length {line : Nat} {path i8 rem : Bytes} {lm : Linemarker}
    (h : lmTail line path i8 = .done rem lm) : rem.length < i8.length := by
  unfold lmTail at h
  cases hOpt : optFlag i8 with
  | mk i9 flag =>
    simp only [hOpt] at h
    have hi9 : i9.length ≤ i8.length := by
      have hfst := optFlag_fst_length i8
      rw [hOpt] at hfst
      exact hfst
    cases hLE : lineEnding i9 with
    | none =>
      simp only [hLE] at h
      exact absurd h (by simp)
    | some rem2 =>
      simp only [hLE] at h
      have hlt : rem2.length < i8.length :=
        lt_of_lt_of_le (lineEnding_some_length hLE) hi9
      cases flag with
      | none =>
        injection h with h1 h2
        subst h1
        exact hlt
      | some v =>
        cases hfo : flagOf v with
        | some f =>
          simp only [hfo] at h
          injection h with h1 h2
          subst h1
          exact hlt
        | none =>
          simp only [hfo] at h
          exact absurd h (by simp)

lemma lmQuote_done_length {line : Nat} {i5 rem : Bytes} {lm : Linemarker}
    (h : lmQuote line i5 = .done rem lm) : rem.length < i5.length := by
  unfold lmQuote at h
  cases h1 : pChar 34 i5 with
  | none => simp only [h1] at h; exact absurd h (by simp)
  | some i6 =>
    simp only [h1] at h
    cases h2 : escape_c_string i6 with
    | none => simp only [h2] at h; exact absurd h (by simp)
    | some p =>
      obtain ⟨i7, path⟩ := p
      simp only [h2] at h
      cases h3 : pChar 34 i7 with
      | none => simp only [h3] at h; exact absurd h (by simp)
      | some i8 =>
        simp only [h3] at h
        have := lmTail_done_length h
        have e1 := pChar_some_length h1
        have e2 := escape_some_length h2
        have e3 := pChar_some_length h3
        omega

lemma parse_linemarker_done_length {i rem : Bytes} {lm : Linemarker}
    (h : parse_linemarker i = .done rem lm) : rem.length < i.length := by
  unfold parse_linemarker at h
  cases h1 : pChar 35 i with
  | none => simp only [h1] at h; exact absurd h (by simp)
  | some i1 =>
    simp only [h1] at h
    have e1 := pChar_some_length h1
    have e2 : ((pTag (strBytes "line") i1).getD i1).length ≤ i1.length := by
      cases h2 : pTag (strBytes "line") i1 with
      | none => simp
      | some r => simpa using pTag_some_length h2
    cases h3 : pSpan isSpaceByte ((pTag (strBytes "line") i1).getD i1) with
    | none => simp only [h3] at h; exact absurd h (by simp)
    | some p3 =>
      obtain ⟨i3, sp⟩ := p3
      simp only [h3] at h
      have e3 := pSpan_some_length h3
      cases h4 : pSpan isDigitByte i3 with
      | none => simp only [h4] at h; exact absurd h (by simp)
      | some p4 =>
        obtain ⟨i4, ds⟩ := p4
        simp only [h4] at h
        have e4 := pSpan_some_length h4
        cases h5 : fromStrNat ds with
        | none => simp only [h5] at h; exact absurd h (by simp)
        | some line =>
          simp only [h5] at h
          cases h6 : pSpan isSpaceByte i4 with
          | none => simp only [h6] at h; exact absurd h (by simp)
          | some p6 =>
            obtain ⟨i5, sp2⟩ := p6
            simp only [h6] at h
            have e6 := pSpan_some_length h6
            have := lmQuote_done_length h
            omega

lemma find_linemarker_found_length {i rem pre : Bytes} {lm : Linemarker}
    (h : find_linemarker i = .found rem pre lm) : rem.length < i.length := by
  unfold find_linemarker at h
  split at h
  · exact absurd h (by simp)
  · cases hmin : minOpt (findSubstringIdx (strBytes "# ") i)
        (findSubstringIdx (strBytes "#line ") i) with
    | none => simp only [hmin] at h; exact absurd h (by simp)
    | some idx =>
      simp only [hmin] at h
      cases hp : parse_linemarker (i.drop idx) with
      | done rem2 lm2 =>
        simp only [hp] at h
        injection h with h1 h2 h3
        subst h1
        have hlen := parse_linemarker_done_length hp
        rw [List.length_drop] at hlen
        omega
      | fail => simp only [hp] at h; exact absurd h (by simp)
      | panicked => simp only [hp] at h; exact absurd h (by simp)

/-! ## The linemarker pass over a region (include.rs lines 328-365) -/

/-- The filesystem, modelled as an association list from paths to file
contents; File::open is a lookup, failing for absent paths. -/
abbrev FS := List (Bytes × Bytes)

/-- File::open followed by reading all bytes. -/
def fsOpen (fs : FS) (p : Bytes) : Option Bytes :=
  (fs.find? (fun e => e.1 == p)).map Prod.snd

/-- The error surface of the include process (include.rs lines 41-55),
together with two model-level outcomes: panicked stands for a Rust runtime
panic (an unreachable!() arm or a checked-arithmetic abort), and outOfFuel
stands for non-termination of the unbounded include recursion (an include
cycle); neither is an IncludeError variant in the source.  The io::Error and
ParseError payloads are reduced to the offending path and to nothing. -/
inductive IncErr where
  | NoBoundReturned (path : Bytes)
  | LinemarkerInDtsi (path : Bytes)
  | IOError (path : Bytes)
  | ParseError
  | panicked
  | outOfFuel
deriving DecidableEq

/-- The child_start computation for a new linemarker bound (include.rs lines
351-354): open the marker path; on success convert the marker line to a byte
offset, propagating its failure through the ? operator; on open failure use
0. -/
def childStartForMarker (fs : FS) (marker : Linemarker) : Except IncErr Nat :=
  match fsOpen fs marker.path with
  | some content =>
    match line_to_byte_offset content marker.child_line with
    | .ok off => .ok off
    | .err => .error .ParseError
    | .panicked => .error .panicked
  | none => .ok 0

/-- The loop body of parse_linemarkers (include.rs lines 334-362), with
end_offset fixed at entry (line 330).  The fuel argument bounds the number of
iterations of the while loop; buf.length + 1 always suffices because each
found marker strictly consumes input. -/
def parseLinemarkersGo (fs : FS) (end_offset : Nat) :
    Nat → Bytes → List IncludeBounds → Except IncErr (List IncludeBounds)
  | 0, _, _ => .error .outOfFuel
  | fuel + 1, buf, bounds =>
    match find_linemarker buf with
    | .nothing => .ok bounds
    | .panicked => .error .panicked
    | .found rem pre marker =>
      match bounds.getLast? with
      | none => .error .panicked
      | some last =>
        match last.method with
        | .DTS => .error (.LinemarkerInDtsi last.path)
        | .CPP =>
          match childStartForMarker fs marker with
          | .error e => .error e
          | .ok cs =>
            parseLinemarkersGo fs end_offset fuel rem
              (bounds.dropLast ++ [{ last with len := pre.length },
                { path := marker.path,
                  global_start := end_offset - rem.length,
                  child_start := cs, len := rem.length,
                  method := .CPP }])

/-- Embedding of parse_linemarkers (include.rs lines 328-365). -/
def parse_linemarkers (fs : FS) (buf : Bytes) (bounds : List IncludeBounds)
    (global_offset : Nat) : Except IncErr (List IncludeBounds) :=
  parseLinemarkersGo fs (global_offset + buf.length) (buf.length + 1) buf bounds

lemma parseLinemarkersGo_fuel (fs : FS) (E : Nat) :
    ∀ n buf bounds, buf.length < n →
      parseLinemarkersGo fs E n buf bounds =
        parseLinemarkersGo fs E (buf.length + 1) buf bounds := by
  intro n
  induction n using Nat.strong_induction_on with
  | _ n ih =>
    intro buf bounds hn
    cases n with
    | zero => omega
    | succ m =>
      rw [parseLinemarkersGo, parseLinemarkersGo]
      cases hf : find_linemarker buf with
      | nothing => simp only [hf]
      | panicked => simp only [hf]
      | found rem pre marker =>
        simp only [hf]
        cases hlast : bounds.getLast? with
        | none => simp only [hlast]
        | some last =>
          simp only [hlast]
          cases hm : last.method with
          | DTS => simp only [hm]
          | CPP =>
            simp only [hm]
            cases hcs : childStartForMarker fs marker with
            | error e => simp only [hcs]
            | ok cs =>
              simp only [hcs]
              have hrem := find_linemarker_found_length hf
              rw [ih m (by omega) rem _ (by omega),
                ih buf.length (by omega) rem _ (by omega)]

/-! ## The include flattener (include.rs lines 367-492) -/

/-- parse_include (include.rs lines 367-375): tag!("/include/"), multispace,
then a double-quoted C-escaped path.  Returns (remainder, path). -/
def parse_include (i : Bytes) : Option (Bytes × Bytes) :=
  match pTag (strBytes "/include/") i with
  | none => none
  | some i1 =>
    match pSpan isMultispaceByte i1 with
    | none => none
    | some (i2, _) =>
      match pChar 34 i2 with
      | none => none
      | some i3 =>
        match escape_c_string i3 with
        | none => none
        | some (i4, path) =>
          match pChar 34 i4 with
          | none => none
          | some i5 => some (i5, path)

/-- find_include (include.rs lines 377-381): take_until!("/include/") then
parse_include.  Returns (remainder, preceding bytes, path); any failure
(substring absent, or the directive malformed) ends the callers' loops. -/
def find_include (buf : Bytes) : Option (Bytes × Bytes × Bytes) :=
  match findSubstringIdx (strBytes "/include/") buf with
  | none => none
  | some idx =>
    match parse_include (buf.drop idx) with
    | none => none
    | some (rem, path) => some (rem, buf.take idx, path)

/-- The two mutually recursive pieces of _include_files (include.rs lines
401-489), defunctionalized: file opens a file and builds the start bound
(lines 405-450); loop is one iteration of the while-let over find_include
(lines 452-488). -/
inductive IncCall where
  | file (path : Bytes) (main_offset : Nat)
  | loop (buf buffer : Bytes) (bounds : List IncludeBounds) (main_offset : Nat)

/-- Embedding of _include_files (include.rs lines 401-489).  The single fuel
argument bounds the total number of steps (include nesting plus loop
iterations); it decreases at every recursive call, so the function is
structurally recursive and kernel-evaluable.  Fuel exhaustion models
non-termination (an include cycle).  See the line-by-line notes on each
branch. -/
def includeRun (fs : FS) : Nat → IncCall → Except IncErr (Bytes × List IncludeBounds)
  | 0, _ => .error .outOfFuel
  | fuel + 1, .file path main_offset =>
    -- File::open(path)? and read_to_string (lines 405-412)
    match fsOpen fs path with
    | none => .error (.IOError path)
    | some content =>
      -- first_linemarker: peek!(parse_linemarker) >> recognize! (lines 414-422)
      match parse_linemarker content with
      | .panicked => .error .panicked
      | .done rem marker =>
        -- CPP start bound (lines 422-438): global_start = buf.len - rem.len,
        -- child_start = line_to_byte_offset(open(marker.path)?, line)?,
        -- len = open(marker.path)?.bytes().count(); the marker line itself is
        -- copied to the output buffer.
        match fsOpen fs marker.path with
        | none => .error (.IOError marker.path)
        | some mcontent =>
          match line_to_byte_offset mcontent marker.child_line with
          | .err => .error .ParseError
          | .panicked => .error .panicked
          | .ok cs =>
            includeRun fs fuel (.loop rem
              (content.take (content.length - rem.length))
              [⟨marker.path, content.length - rem.length, cs,
                mcontent.length, .CPP⟩]
              main_offset)
      | .fail =>
        -- DTS start bound (lines 440-448)
        includeRun fs fuel (.loop content []
          [⟨path, main_offset, 0, content.length, .DTS⟩] main_offset)
  | fuel + 1, .loop buf buffer bounds main_offset =>
    match find_include buf with
    | some (rem, pre, fpath) =>
      -- lines 452-481: linemarker pass on pre, emit pre, recurse on the
      -- included path, splice via split_bounds, extend and resort
      match parse_linemarkers fs pre bounds buffer.length with
      | .error e => .error e
      | .ok bounds1 =>
        match includeRun fs fuel (.file fpath (buffer.length + pre.length + main_offset)) with
        | .error e => .error e
        | .ok (sub_buf, sub_bounds) =>
          match sub_bounds.head?, sub_bounds.getLast? with
          | some bfirst, some blast =>
            includeRun fs fuel (.loop rem ((buffer ++ pre) ++ sub_buf)
              (sortBounds
                ((split_bounds bounds1 bfirst.global_start (bEnd blast)
                  ((buf.length - pre.length) - rem.length)) ++ sub_bounds))
              main_offset)
          | _, _ => .error (.NoBoundReturned fpath)
    | none =>
      -- lines 484-488: linemarker pass on the tail, append, return
      match parse_linemarkers fs buf bounds buffer.length with
      | .error e => .error e
      | .ok bounds2 => .ok (buffer ++ buf, bounds2)

/-- Embedding of include_files (include.rs lines 400, 491): the recursion
started at the root path with main_offset 0. -/
def include_files (fs : FS) (fuel : Nat) (path : Bytes) :
    Except IncErr (Bytes × List IncludeBounds) :=
  includeRun fs fuel (.file path 0)

/-- C8: whenever the linemarker pass finds an embedded linemarker while the
most recent bound has method DTS (a region entered via an /include/
directive), it fails with LinemarkerInDtsi carrying that bound's path (and
include_files, which only propagates this error with ?, fails identically);
when the most recent bound has method CPP, that bound's length is shrunk to
the length of the bytes preceding the marker and a new CPP bound for the
marker is pushed instead, before the pass continues on the remainder. -/
theorem parse_linemarkers_dtsi (fs : FS) (buf : Bytes)
    (bounds : List IncludeBounds) (gOff : Nat) (rem pre : Bytes)
    (marker : Linemarker) (last : IncludeBounds)
    (hfind : find_linemarker buf = .found rem pre marker)
    (hlast : bounds.getLast? = some last) :
    (last.method = .DTS →
      parse_linemarkers fs buf bounds gOff =
        .error (.LinemarkerInDtsi last.path))
    ∧ (∀ cs, last.method = .CPP → childStartForMarker fs marker = .ok cs →
      parse_linemarkers fs buf bounds gOff =
        parse_linemarkers fs rem
          (bounds.dropLast ++ [{ last with len := pre.length },
            { path := marker.path,
              global_start := (gOff + buf.length) - rem.length,
              child_start := cs, len := rem.length, method := .CPP }])
          ((gOff + buf.length) - rem.length))
    ∧ include_files
        [(strBytes "root.dts", strBytes "a\n/include/ \"x.dtsi\"\nb\n"),
         (strBytes "x.dtsi", strBytes "c\n# 1 \"y\"\nd\n")]
        10 (strBytes "root.dts")
      = .error (.LinemarkerInDtsi (strBytes "x.dtsi")) := by
  have hlen := find_linemarker_found_length hfind
  refine ⟨?_, ?_, by decide⟩
  · intro hdts
    unfold parse_linemarkers
    rw [parseLinemarkersGo]
    simp only [hfind, hlast, hdts]
  · intro cs hcpp hcs
    unfold parse_linemarkers
    rw [parseLinemarkersGo]
    simp only [hfind, hlast, hcpp, hcs]
    have hE : (gOff + buf.length - rem.length) + rem.length = gOff + buf.length := by
      omega
    rw [hE]
    exact parseLinemarkersGo_fuel fs _ buf.length rem _ hlen

/-- Witness for C8 at a concrete input: a marker found while the last bound is
a DTS bound raises LinemarkerInDtsi with that bound's path. -/
theorem parse_linemarkers_dtsi_witness :
    find_linemarker (strBytes "# 5 \"q\"\nxy")
      = .found (strBytes "xy") [] ⟨5, strBytes "q", none⟩
    ∧ ([⟨strBytes "a.dts", 0, 0, 10, .DTS⟩] : List IncludeBounds).getLast?
      = some ⟨strBytes "a.dts", 0, 0, 10, .DTS⟩
    ∧ parse_linemarkers [] (strBytes "# 5 \"q\"\nxy")
        [⟨strBytes "a.dts", 0, 0, 10, .DTS⟩] 0
      = .error (.LinemarkerInDtsi (strBytes "a.dts")) := by
  refine ⟨by decide, by decide, ?_⟩
  exact (parse_linemarkers_dtsi [] (strBytes "# 5 \"q\"\nxy")
    [⟨strBytes "a.dts", 0, 0, 10, .DTS⟩] 0 (strBytes "xy") []
    ⟨5, strBytes "q", none⟩ ⟨strBytes "a.dts", 0, 0, 10, .DTS⟩
    (by decide) (by decide)).1 (by decide)

/-- Sum of the len fields of a bounds vector. -/
def sumLens (l : List IncludeBounds) : Nat := (l.map IncludeBounds.len).sum

/-- The E1 filesystem of the spec: a root a.dts whose include directive pulls in b.dtsi. -/
def fsE1 : FS :=
  [(strBytes "a.dts", strBytes "hello\n/include/ \"b.dtsi\"\nworld\n"),
   (strBytes "b.dtsi", strBytes "middle\n")]

/-- C3 (amended): on the E1 input, include_files yields the buffer
"hello\nmiddle\n\nworld\n" (the newline after the closing quote of the
directive is preserved, so two newlines separate middle and world) and three
DTS bounds (a.dts, 0, 0, 6), (b.dtsi, 6, 0, 7) and (a.dts, 13, 24, 25): the
tail child_start 24 = 6 + 18 accounts for the 18 directive bytes skipped in
the source, and the tail len is the provisional 25 = 31 - 6 left over from
split_bounds, not the 6 bytes the claim expects. -/
theorem include_files_e1_eval :
    include_files fsE1 20 (strBytes "a.dts")
      = .ok (strBytes "hello\nmiddle\n\nworld\n",
          [⟨strBytes "a.dts", 0, 0, 6, .DTS⟩,
           ⟨strBytes "b.dtsi", 6, 0, 7, .DTS⟩,
           ⟨strBytes "a.dts", 13, 24, 25, .DTS⟩]) := by decide

/-- Counterexample for C3 as stated: the produced buffer is not
"hello\nmiddle\nworld\n", and no choice of child_start makes the produced
bounds equal to the claimed three bounds, since the tail bound has len 25,
not 6. -/
theorem include_files_e1_counterexample :
    include_files fsE1 20 (strBytes "a.dts")
      = .ok (strBytes "hello\nmiddle\n\nworld\n",
          [⟨strBytes "a.dts", 0, 0, 6, .DTS⟩,
           ⟨strBytes "b.dtsi", 6, 0, 7, .DTS⟩,
           ⟨strBytes "a.dts", 13, 24, 25, .DTS⟩])
    ∧ strBytes "hello\nmiddle\n\nworld\n" ≠ strBytes "hello\nmiddle\nworld\n"
    ∧ ([⟨strBytes "a.dts", 0, 0, 6, .DTS⟩,
          ⟨strBytes "b.dtsi", 6, 0, 7, .DTS⟩,
          ⟨strBytes "a.dts", 13, 24, 25, .DTS⟩] : List IncludeBounds).map
        IncludeBounds.len = [6, 7, 25]
    ∧ (25 : Nat) ≠ 6 :=
  ⟨by decide, by decide, by decide, by decide⟩

/-- C2: evaluation refuting the bounds invariants on a produced result.  On
the E1 input the bounds are sorted and pairwise disjoint, but the sum of their
len fields is 38 while the buffer length is 20: the remainder bound produced
by split_bounds keeps the provisional whole-file length (25) instead of
shrinking it by the directive bytes and the double-counted tail. -/
theorem include_files_sum_len_violation :
    include_files fsE1 20 (strBytes "a.dts")
      = .ok (strBytes "hello\nmiddle\n\nworld\n",
          [⟨strBytes "a.dts", 0, 0, 6, .DTS⟩,
           ⟨strBytes "b.dtsi", 6, 0, 7, .DTS⟩,
           ⟨strBytes "a.dts", 13, 24, 25, .DTS⟩])
    ∧ sumLens [⟨strBytes "a.dts", 0, 0, 6, .DTS⟩,
           ⟨strBytes "b.dtsi", 6, 0, 7, .DTS⟩,
           ⟨strBytes "a.dts", 13, 24, 25, .DTS⟩] = 38
    ∧ (strBytes "hello\nmiddle\n\nworld\n").length = 20
    ∧ (38 : Nat) ≠ 20
    ∧ sortedBounds [⟨strBytes "a.dts", 0, 0, 6, .DTS⟩,
           ⟨strBytes "b.dtsi", 6, 0, 7, .DTS⟩,
           ⟨strBytes "a.dts", 13, 24, 25, .DTS⟩]
    ∧ disjointBounds [⟨strBytes "a.dts", 0, 0, 6, .DTS⟩,
           ⟨strBytes "b.dtsi", 6, 0, 7, .DTS⟩,
           ⟨strBytes "a.dts", 13, 24, 25, .DTS⟩] :=
  ⟨by decide, by decide, by decide, by decide, by decide, by decide⟩
